

import Mathlib

/-!
# Verification of the minitorch autodiff core (`src/minitorch/autodiff.py`)

Shallow embedding of the reverse-mode automatic-differentiation engine:
`central_difference`, `topological_sort`, `backpropagate`, and `Context`.

Modelling choices:
* A node is identified with its `unique_id : Nat` (the source keys every
  visited-set and derivative map by `unique_id`, and ids are unique).
* A computation graph is an arena: functions from ids to the node's
  `parents`, `is_leaf`, `is_constant` and `chain_rule` data.  The source's
  recursive `dfs` terminates only on acyclic graphs; acyclicity is embedded
  by the (always achievable) topological numbering in which every parent
  has a strictly smaller id than its child — in the source this numbering
  is in fact the global `variable_count` order of construction.
* Scalars are `Rat` (exact arithmetic; the spec's test values are all
  exactly representable).
* `backpropagate` returns `None` in Python and acts through side effects;
  the embedding returns the trace of the calls it performs
  (`accumulate_derivative` and `chain_rule` invocations, in order), which
  is exactly its observable behaviour.
* `central_difference` can raise `IndexError`; the embedding returns
  `Option`, with `none` for the raising executions, and models Python's
  negative-index semantics of `list.__getitem__`/`__setitem__`.
-/

/-- A computation graph (arena of nodes, addressed by `unique_id`).
`parents_lt` embeds the acyclicity precondition: parents are created
before children, so their ids are strictly smaller. -/
structure Graph where
  parents : Nat → List Nat
  is_leaf : Nat → Bool
  is_constant : Nat → Bool
  chain_rule : Nat → Rat → List (Nat × Rat)
  parents_lt : ∀ v, ∀ p ∈ parents v, p < v

/-- One step of the inner `dfs` of `topological_sort`.  State is
`(visited, topological_order)`; `visited` is the Python set of marked
`unique_id`s, `topological_order` the list built by `append`. -/
def dfs (g : Graph) (v : Nat) (st : List Nat × List Nat) : List Nat × List Nat :=
  if v ∈ st.1 then st
  else if g.is_constant v then st
  else
    let st1 := (g.parents v).attach.foldl (fun s p => dfs g p.1 s) (v :: st.1, st.2)
    (st1.1, st1.2 ++ [v])
termination_by v
decreasing_by exact g.parents_lt v p.1 p.2

/-- Folding `dfs` over a list of nodes (the `for parent in variable_.parents`
loop), with the termination bookkeeping erased. -/
def dfsMany (g : Graph) (l : List Nat) (st : List Nat × List Nat) : List Nat × List Nat :=
  l.foldl (fun s p => dfs g p s) st

/-- `topological_sort` from the source: run `dfs` from the terminal node on
empty state, then reverse the post-order list (output-to-input order). -/
def topological_sort (g : Graph) (variable_ : Nat) : List Nat :=
  ((dfs g variable_ ([], [])).2).reverse

/-- The `node_derivative` dictionary: association list keyed by `unique_id`. -/
abbrev DMap := List (Nat × Rat)

/-- `node_derivative.get(id, 0.0)`: dictionary read with default `0.0`. -/
def dgetD (m : DMap) (k : Nat) : Rat := ((m.lookup k).getD 0)

/-- `node_derivative[id] = x`: dictionary assignment (replace or add). -/
def dset : DMap → Nat → Rat → DMap
  | [], k, x => [(k, x)]
  | (k', x') :: m, k, x => if k' = k then (k, x) :: m else (k', x') :: dset m k x

/-- The inner loop of `backpropagate` over the pairs returned by
`chain_rule`: each contribution is added into the parent's entry. -/
def distribute (m : DMap) (contribs : List (Nat × Rat)) : DMap :=
  contribs.foldl (fun m' pd => dset m' pd.1 (dgetD m' pd.1 + pd.2)) m

/-- Observable calls performed by `backpropagate`, in order. -/
inductive BEvent where
  /-- `cur_node.chain_rule(cur_deriv)` was invoked on node `id`. -/
  | chainCall (id : Nat) (d : Rat)
  /-- `cur_node.accumulate_derivative(cur_deriv)` was invoked on node `id`. -/
  | accum (id : Nat) (d : Rat)
  deriving DecidableEq

/-- The body of the `for cur_node in topological_order` loop of
`backpropagate`.  State is the derivative map together with the trace of
calls made so far. -/
def backpropStep (g : Graph) (st : DMap × List BEvent) (cur : Nat) : DMap × List BEvent :=
  let cur_deriv := dgetD st.1 cur
  if g.is_leaf cur = false then
    (distribute st.1 (g.chain_rule cur cur_deriv), st.2 ++ [BEvent.chainCall cur cur_deriv])
  else
    (st.1, st.2 ++ [BEvent.accum cur cur_deriv])

/-- `backpropagate` from the source: seed the derivative map with the
terminal node, then process the topological order.  The result is the
trace of `chain_rule`/`accumulate_derivative` calls (the source returns
`None`; these calls are its whole observable behaviour). -/
def backpropagate (g : Graph) (variable_ : Nat) (deriv : Rat) : List BEvent :=
  ((topological_sort g variable_).foldl (backpropStep g) (dset [] variable_ deriv, [])).2

/-- The values passed to `accumulate_derivative` on node `t`, in order. -/
def accumsAt (t : Nat) (evs : List BEvent) : List Rat :=
  evs.filterMap (fun e => match e with
    | BEvent.accum i d => if i = t then some d else none
    | BEvent.chainCall _ _ => none)

/-- The node an event happened at. -/
def BEvent.id : BEvent → Nat
  | BEvent.chainCall i _ => i
  | BEvent.accum i _ => i

/-- Python sequence indexing (`l[i]` for int `i`): negative indices count
from the end; out-of-range indices raise `IndexError` (here: `none`). -/
def pyIndex (n : Nat) (i : Int) : Option Nat :=
  if i < 0 then
    if 0 ≤ i + n ∧ i + n < (n : Int) then some (i + n).toNat else none
  else
    if 0 ≤ i ∧ i < (n : Int) then some i.toNat else none

/-- `central_difference` from the source: copy `vals`, perturb entry `arg`
by `+epsilon` resp. `-epsilon` (Python index semantics; `IndexError`
becomes `none`, raised before `f` is ever applied), and return the
symmetric difference quotient. -/
def central_difference (f : List Rat → Rat) (vals : List Rat)
    (arg : Int := 0) (epsilon : Rat := 1 / 1000000) : Option Rat :=
  match pyIndex vals.length arg with
  | none => none
  | some j =>
      let vals_plus_eps := vals.set j (vals.getD j 0 + epsilon)
      let vals_minus_eps := vals.set j (vals.getD j 0 - epsilon)
      some ((f vals_plus_eps - f vals_minus_eps) / (2 * epsilon))

/-! ## Reachability and the ordering invariant -/

/-- `Reach g a b`: node `b` is reachable from node `a` by following
`parents` edges (zero or more steps). -/
inductive Reach (g : Graph) : Nat → Nat → Prop
  | refl (a : Nat) : Reach g a a
  | tail {a b c : Nat} : Reach g a b → c ∈ g.parents b → Reach g a c

/-- The output-to-input ordering invariant: every non-constant parent of
an element occurs strictly later in the list. -/
def OrdInv (g : Graph) : List Nat → Prop
  | [] => True
  | u :: s => (∀ p ∈ g.parents u, g.is_constant p = false → p ∈ s) ∧ OrdInv g s

/-! ## The depth-first-search invariants

`DfsFacts g v st st'` collects everything the correctness proofs need
about one call `dfs g v st = st'`; `ChainFacts` is the corresponding
statement for the fold over a parent list.  They are proved simultaneously
by strong induction on the node id (parents have smaller ids). -/

structure DfsFacts (g : Graph) (v : Nat) (st st' : List Nat × List Nat) : Prop where
  vis_mono : ∀ u ∈ st.1, u ∈ st'.1
  ord_ext : ∃ tl, st'.2 = st.2 ++ tl
  vis_done : ∀ u ∈ st'.1, u ∈ st.1 ∨ u ∈ st'.2
  ord_new : ∀ u ∈ st'.2, u ∈ st.2 ∨ (u ∉ st.1 ∧ u ∈ st'.1)
  root_vis : g.is_constant v = false → v ∈ st'.1
  vis_reach : ∀ u ∈ st'.1, u ∈ st.1 ∨ (Reach g v u ∧ g.is_constant u = false)
  ord_inv : (∀ u ∈ st.1, u < v → u ∈ st.2) → OrdInv g st.2.reverse →
    OrdInv g st'.2.reverse
  ord_nodup : st.2.Nodup → (∀ u ∈ st.2, u ∈ st.1) →
    st'.2.Nodup ∧ ∀ u ∈ st'.2, u ∈ st'.1

structure ChainFacts (g : Graph) (b : Nat) (l : List Nat) (st st' : List Nat × List Nat) :
    Prop where
  vis_mono : ∀ u ∈ st.1, u ∈ st'.1
  ord_ext : ∃ tl, st'.2 = st.2 ++ tl
  vis_done : ∀ u ∈ st'.1, u ∈ st.1 ∨ u ∈ st'.2
  ord_new : ∀ u ∈ st'.2, u ∈ st.2 ∨ (u ∉ st.1 ∧ u ∈ st'.1)
  elems_vis : ∀ p ∈ l, g.is_constant p = false → p ∈ st'.1
  vis_reach : ∀ u ∈ st'.1, u ∈ st.1 ∨ ((∃ p ∈ l, Reach g p u) ∧ g.is_constant u = false)
  ord_inv : (∀ u ∈ st.1, u < b → u ∈ st.2) → OrdInv g st.2.reverse →
    OrdInv g st'.2.reverse
  ord_nodup : st.2.Nodup → (∀ u ∈ st.2, u ∈ st.1) →
    st'.2.Nodup ∧ ∀ u ∈ st'.2, u ∈ st'.1

/-- The sum of the contributions a list of `(parent, deriv_)` pairs makes
to node `u` (the amounts the inner loop of `backpropagate` adds into
`node_derivative[u]`). -/
def contribSum : List (Nat × Rat) → Nat → Rat
  | [], _ => 0
  | pd :: l, u => (if pd.1 = u then pd.2 else 0) + contribSum l u

/-! ## The mathematical total derivative (sum over all paths)

Modelled from the spec: the "total derivative of the objective with
respect to that leaf (summed across all paths reaching it)", for a graph
whose nodes apply the chain rule linearly — node `u` sends
`c * d_output` to parent `p` for each `(p, c)` in `coeff u` (`c` is the
local derivative).  `pathDeriv g coeff hlt t u` is the sum, over all
paths from `u` down to `t` (derivative flow stops at leaves), of the
product of the local derivatives along the path. -/
def pathDeriv (g : Graph) (coeff : Nat → List (Nat × Rat))
    (hlt : ∀ u, ∀ pc ∈ coeff u, pc.1 < u) (t : Nat) (u : Nat) : Rat :=
  if u = t then 1
  else if g.is_leaf u then 0
  else ((coeff u).attach.map (fun pc => pc.1.2 * pathDeriv g coeff hlt t pc.1.1)).sum
termination_by u
decreasing_by exact hlt u pc.1 pc.2

/-- The frame discipline of one event: `accumulate_derivative` happens
only at leaves, `chain_rule` only at non-leaves. -/
def leafOk (g : Graph) : BEvent → Prop
  | BEvent.accum i _ => g.is_leaf i = true
  | BEvent.chainCall i _ => g.is_leaf i = false

/-! ## A concrete example graph: `out = (x + x) * y`, `x = 3`, `y = 5`

Node ids: `1 = x` (leaf), `2 = y` (leaf), `3 = x + x`, `4 = out`.  The
chain rules are the correct `+` and `*` rules at these values. -/

def gEx : Graph where
  parents v := if v = 3 then [1, 1] else if v = 4 then [3, 2] else []
  is_leaf n := n == 1 || n == 2
  is_constant _ := false
  chain_rule n d :=
    if n = 3 then [(1, d), (1, d)]
    else if n = 4 then [(3, 5 * d), (2, 6 * d)]
    else []
  parents_lt := by
    intro v p hp
    dsimp only at hp
    split at hp
    · subst_vars; simp at hp; omega
    · split at hp
      · subst_vars; simp at hp; omega
      · simp at hp

/-- Local-derivative coefficients of `gEx` (chain rules are linear). -/
def coeffEx (n : Nat) : List (Nat × Rat) :=
  if n = 3 then [(1, 1), (1, 1)] else if n = 4 then [(3, 5), (2, 6)] else []

/-! ## A diamond graph with two dependents of a shared node

`0 = w` (leaf), `1 = z` (shared, non-leaf, parent `w`), `2 = a` and
`3 = b` (both with parent `z`, local derivatives `d1` resp. `d2`),
`4 = out` (parents `a`, `b`, local derivative 1 each). -/
def gDiamond (d1 d2 : Rat) : Graph where
  parents v :=
    if v = 1 then [0] else if v = 2 then [1] else if v = 3 then [1]
    else if v = 4 then [2, 3] else []
  is_leaf n := n == 0
  is_constant _ := false
  chain_rule n d :=
    if n = 1 then [(0, d)] else if n = 2 then [(1, d1 * d)]
    else if n = 3 then [(1, d2 * d)] else if n = 4 then [(2, d), (3, d)] else []
  parents_lt := by
    intro v p hp
    dsimp only at hp
    split at hp
    · subst_vars; simp at hp; omega
    · split at hp
      · subst_vars; simp at hp; omega
      · split at hp
        · subst_vars; simp at hp; omega
        · split at hp
          · subst_vars; simp at hp; omega
          · simp at hp

/-- A graph with a structurally reachable constant: `0 = leaf`,
`1 = constant`, `2 = terminal` with parents `[1, 0]`. -/
def gConst : Graph where
  parents v := if v = 2 then [1, 0] else []
  is_leaf n := n == 0
  is_constant n := n == 1
  chain_rule n d := if n = 2 then [(1, d), (0, d)] else []
  parents_lt := by
    intro v p hp
    dsimp only at hp
    split at hp
    · subst_vars; simp at hp; omega
    · simp at hp

/-- A one-node graph: a single non-constant leaf with no parents. -/
def gLeaf : Graph where
  parents _ := []
  is_leaf _ := true
  is_constant _ := false
  chain_rule _ _ := []
  parents_lt := by intro v p hp; simp at hp

/-- The `Context` dataclass (saved values are kept abstract, as in the
source's `Tuple[Any, ...]`). -/
structure Context (α : Type) where
  no_grad : Bool := false
  saved_values : List α := []

/-- `save_for_backward` from the source: no-op under `no_grad`, otherwise
the whole saved tuple is replaced. -/
def Context.save_for_backward (ctx : Context α) (values : List α) : Context α :=
  if ctx.no_grad then ctx else { ctx with saved_values := values }

/-- The `saved_tensors` property. -/
def Context.saved_tensors (ctx : Context α) : List α := ctx.saved_values

/-! ## Sum over all paths, with the paths enumerated explicitly -/

/-- The list of products of local derivatives, one entry per path from
`u` down to `t` (derivative flow stops at leaves, so paths through other
leaves are absent).  `pathDeriv` is its sum — see
`pathDeriv_eq_pathProds_sum`. -/
def pathProds (g : Graph) (coeff : Nat → List (Nat × Rat))
    (hlt : ∀ u, ∀ pc ∈ coeff u, pc.1 < u) (t : Nat) (u : Nat) : List Rat :=
  if u = t then [1]
  else if g.is_leaf u then []
  else ((coeff u).attach.map
    (fun pc => (pathProds g coeff hlt t pc.1.1).map (fun w => pc.1.2 * w))).flatten
termination_by u
decreasing_by exact hlt u pc.1 pc.2

/-! ## Unfolding lemmas for `dfs`

`dfs` is defined by well-founded recursion, so we expose its recursive
behaviour through equations phrased with `dfsMany` (which unfolds
structurally on the parent list). -/

theorem dfs_foldl_attach (g : Graph) (l : List Nat) (st : List Nat × List Nat) :
    l.attach.foldl (fun s p => dfs g p.1 s) st = dfsMany g l st :=
  List.foldl_attach l (fun s p => dfs g p s) st

theorem dfsMany_nil (g : Graph) (st : List Nat × List Nat) : dfsMany g [] st = st := rfl

theorem dfsMany_cons (g : Graph) (p : Nat) (l : List Nat) (st : List Nat × List Nat) :
    dfsMany g (p :: l) st = dfsMany g l (dfs g p st) := rfl

theorem dfs_eq (g : Graph) (v : Nat) (st : List Nat × List Nat) :
    dfs g v st =
      if v ∈ st.1 then st
      else if g.is_constant v then st
      else
        let st1 := dfsMany g (g.parents v) (v :: st.1, st.2)
        (st1.1, st1.2 ++ [v]) := by
  rw [dfs]
  simp only [dfs_foldl_attach]

theorem Reach.trans {g : Graph} {a b c : Nat} (h1 : Reach g a b) (h2 : Reach g b c) :
    Reach g a c := by
  induction h2 with
  | refl => exact h1
  | tail _ he ih => exact Reach.tail ih he

theorem Reach.of_parent {g : Graph} {a p : Nat} (hp : p ∈ g.parents a) : Reach g a p :=
  Reach.tail (Reach.refl a) hp

theorem Reach.le {g : Graph} {a b : Nat} (h : Reach g a b) : b ≤ a := by
  induction h with
  | refl => exact Nat.le_refl _
  | tail _ he ih => exact Nat.le_trans (Nat.le_of_lt (g.parents_lt _ _ he)) ih

theorem OrdInv.mem_closed {g : Graph} {s : List Nat} (h : OrdInv g s) :
    ∀ u ∈ s, ∀ p ∈ g.parents u, g.is_constant p = false → p ∈ s := by
  induction s with
  | nil => exact fun u hu => absurd hu (List.not_mem_nil u)
  | cons a t ih =>
      intro u hu p hp hc
      rcases List.mem_cons.mp hu with hu' | hu'
      · subst hu'
        exact List.mem_cons_of_mem _ (h.1 p hp hc)
      · exact List.mem_cons_of_mem _ (ih h.2 u hu' p hp hc)

theorem dfsMany_facts (g : Graph) (b : Nat)
    (IH : ∀ p, p < b → ∀ st, DfsFacts g p st (dfs g p st)) :
    ∀ l, (∀ p ∈ l, p < b) → ∀ st, ChainFacts g b l st (dfsMany g l st) := by
  intro l
  induction l with
  | nil =>
      intro _ st
      rw [dfsMany_nil]
      exact {
        vis_mono := fun u h => h
        ord_ext := ⟨[], (List.append_nil st.2).symm⟩
        vis_done := fun u h => Or.inl h
        ord_new := fun u h => Or.inl h
        elems_vis := fun p hp => absurd hp (List.not_mem_nil p)
        vis_reach := fun u h => Or.inl h
        ord_inv := fun _ h => h
        ord_nodup := fun h1 h2 => ⟨h1, h2⟩ }
  | cons p l ih =>
      intro hlt st
      rw [dfsMany_cons]
      have hpb : p < b := hlt p (List.mem_cons_self p l)
      have Dp : DfsFacts g p st (dfs g p st) := IH p hpb st
      have Cl : ChainFacts g b l (dfs g p st) (dfsMany g l (dfs g p st)) :=
        ih (fun q hq => hlt q (List.mem_cons_of_mem p hq)) (dfs g p st)
      obtain ⟨tl1, htl1⟩ := Dp.ord_ext
      obtain ⟨tl2, htl2⟩ := Cl.ord_ext
      have hmid : ∀ u ∈ (dfs g p st).2, u ∈ (dfsMany g l (dfs g p st)).2 := by
        intro u hu; rw [htl2]; exact List.mem_append_left _ hu
      refine {
        vis_mono := fun u h => Cl.vis_mono u (Dp.vis_mono u h)
        ord_ext := ⟨tl1 ++ tl2, by rw [htl2, htl1, List.append_assoc]⟩
        vis_done := ?_
        ord_new := ?_
        elems_vis := ?_
        vis_reach := ?_
        ord_inv := ?_
        ord_nodup := fun h1 h2 => Cl.ord_nodup (Dp.ord_nodup h1 h2).1 (Dp.ord_nodup h1 h2).2 }
      · intro u hu
        rcases Cl.vis_done u hu with h | h
        · rcases Dp.vis_done u h with h' | h'
          · exact Or.inl h'
          · exact Or.inr (hmid u h')
        · exact Or.inr h
      · intro u hu
        rcases Cl.ord_new u hu with h | h
        · rcases Dp.ord_new u h with h' | h'
          · exact Or.inl h'
          · exact Or.inr ⟨h'.1, Cl.vis_mono u h'.2⟩
        · exact Or.inr ⟨fun hmem => h.1 (Dp.vis_mono u hmem), h.2⟩
      · intro q hq hc
        rcases List.mem_cons.mp hq with hq' | hq'
        · subst hq'
          exact Cl.vis_mono q (Dp.root_vis hc)
        · exact Cl.elems_vis q hq' hc
      · intro u hu
        rcases Cl.vis_reach u hu with h | h
        · rcases Dp.vis_reach u h with h' | h'
          · exact Or.inl h'
          · exact Or.inr ⟨⟨p, List.mem_cons_self p l, h'.1⟩, h'.2⟩
        · obtain ⟨⟨q, hq, hr⟩, hc⟩ := h
          exact Or.inr ⟨⟨q, List.mem_cons_of_mem p hq, hr⟩, hc⟩
      · intro hK hO
        have hO1 : OrdInv g (dfs g p st).2.reverse :=
          Dp.ord_inv (fun u hu hlt' => hK u hu (Nat.lt_trans hlt' hpb)) hO
        refine Cl.ord_inv ?_ hO1
        intro u hu hub
        rcases Dp.vis_done u hu with h | h
        · rw [htl1]; exact List.mem_append_left _ (hK u h hub)
        · exact h

theorem dfs_facts (g : Graph) : ∀ v st, DfsFacts g v st (dfs g v st) := by
  intro v
  induction v using Nat.strong_induction_on with
  | _ v IH =>
      intro st
      rw [dfs_eq]
      by_cases hv : v ∈ st.1
      · rw [if_pos hv]
        exact {
          vis_mono := fun u h => h
          ord_ext := ⟨[], (List.append_nil st.2).symm⟩
          vis_done := fun u h => Or.inl h
          ord_new := fun u h => Or.inl h
          root_vis := fun _ => hv
          vis_reach := fun u h => Or.inl h
          ord_inv := fun _ h => h
          ord_nodup := fun h1 h2 => ⟨h1, h2⟩ }
      · rw [if_neg hv]
        by_cases hc : g.is_constant v = true
        · rw [if_pos hc]
          exact {
            vis_mono := fun u h => h
            ord_ext := ⟨[], (List.append_nil st.2).symm⟩
            vis_done := fun u h => Or.inl h
            ord_new := fun u h => Or.inl h
            root_vis := fun h => absurd hc (by simp [h])
            vis_reach := fun u h => Or.inl h
            ord_inv := fun _ h => h
            ord_nodup := fun h1 h2 => ⟨h1, h2⟩ }
        · rw [if_neg hc]
          have hc' : g.is_constant v = false := by
            revert hc; cases g.is_constant v <;> simp
          have C : ChainFacts g v (g.parents v) (v :: st.1, st.2)
              (dfsMany g (g.parents v) (v :: st.1, st.2)) :=
            dfsMany_facts g v IH (g.parents v) (g.parents_lt v) (v :: st.1, st.2)
          rcases hds : dfsMany g (g.parents v) (v :: st.1, st.2) with ⟨V1, O1⟩
          rw [hds] at C
          show DfsFacts g v st (V1, O1 ++ [v])
          obtain ⟨tl1, htl1⟩ := C.ord_ext
          replace htl1 : O1 = st.2 ++ tl1 := htl1
          have hvV1 : v ∈ V1 := C.vis_mono v (List.mem_cons_self v st.1)
          have hmid : ∀ u ∈ st.2, u ∈ O1 := by
            intro u hu; rw [htl1]; exact List.mem_append_left _ hu
          refine {
            vis_mono := fun u h => C.vis_mono u (List.mem_cons_of_mem v h)
            ord_ext := ⟨tl1 ++ [v], by rw [htl1, List.append_assoc]⟩
            vis_done := ?_
            ord_new := ?_
            root_vis := fun _ => hvV1
            vis_reach := ?_
            ord_inv := ?_
            ord_nodup := ?_ }
          · intro u hu
            rcases C.vis_done u hu with h | h
            · rcases List.mem_cons.mp h with h' | h'
              · subst h'
                exact Or.inr (List.mem_append_right _ (List.mem_singleton.mpr rfl))
              · exact Or.inl h'
            · exact Or.inr (List.mem_append_left _ h)
          · intro u hu
            rcases List.mem_append.mp hu with h | h
            · rcases C.ord_new u h with h' | h'
              · exact Or.inl h'
              · exact Or.inr ⟨fun hm => h'.1 (List.mem_cons_of_mem v hm), h'.2⟩
            · have huv : u = v := List.mem_singleton.mp h
              subst huv
              exact Or.inr ⟨hv, hvV1⟩
          · intro u hu
            rcases C.vis_reach u hu with h | h
            · rcases List.mem_cons.mp h with h' | h'
              · subst h'
                exact Or.inr ⟨Reach.refl u, hc'⟩
              · exact Or.inl h'
            · obtain ⟨⟨p, hp, hr⟩, hcu⟩ := h
              exact Or.inr ⟨(Reach.of_parent hp).trans hr, hcu⟩
          · intro hK hO
            have hK' : ∀ u ∈ v :: st.1, u < v → u ∈ st.2 := by
              intro u hu hlt
              rcases List.mem_cons.mp hu with h' | h'
              · subst h'; exact absurd hlt (Nat.lt_irrefl u)
              · exact hK u h' hlt
            have hO1 : OrdInv g O1.reverse := C.ord_inv hK' hO
            have hrev : (O1 ++ [v]).reverse = v :: O1.reverse := by simp
            show OrdInv g (O1 ++ [v]).reverse
            rw [hrev]
            refine ⟨?_, hO1⟩
            intro p hp hcp
            have hpV1 := C.elems_vis p hp hcp
            have hplt : p < v := g.parents_lt v p hp
            rw [List.mem_reverse]
            rcases C.vis_done p hpV1 with h | h
            · rcases List.mem_cons.mp h with h' | h'
              · subst h'; exact absurd hplt (Nat.lt_irrefl p)
              · exact hmid p (hK p h' hplt)
            · exact h
          · intro h1 h2
            have h2' : ∀ u ∈ st.2, u ∈ v :: st.1 := fun u hu =>
              List.mem_cons_of_mem v (h2 u hu)
            obtain ⟨hnd1, hsub1⟩ := C.ord_nodup h1 h2'
            have hvO1 : v ∉ O1 := by
              intro hmem
              rcases C.ord_new v hmem with h | h
              · exact hv (h2 v h)
              · exact h.1 (List.mem_cons_self v st.1)
            constructor
            · simp only [List.nodup_append, List.nodup_cons, List.nodup_nil]
              exact ⟨hnd1, by simp, by simpa using hvO1⟩
            · intro u hu
              rcases List.mem_append.mp hu with h | h
              · exact hsub1 u h
              · have huv : u = v := List.mem_singleton.mp h
                subst huv
                exact hvV1

/-! ## Properties of `topological_sort` -/

theorem topological_sort_ordInv (g : Graph) (v : Nat) :
    OrdInv g (topological_sort g v) :=
  (dfs_facts g v ([], [])).ord_inv (fun u hu => absurd hu (List.not_mem_nil u))
    (by simp [OrdInv])

theorem topological_sort_nodup (g : Graph) (v : Nat) :
    (topological_sort g v).Nodup := by
  have h := ((dfs_facts g v ([], [])).ord_nodup List.nodup_nil
    (fun u hu => absurd hu (List.not_mem_nil u))).1
  exact List.nodup_reverse.mpr h

theorem topological_sort_mem_visited (g : Graph) (v u : Nat)
    (hu : u ∈ topological_sort g v) : u ∈ (dfs g v ([], [])).1 := by
  have hu' : u ∈ (dfs g v ([], [])).2 := List.mem_reverse.mp hu
  rcases (dfs_facts g v ([], [])).ord_new u hu' with h | h
  · exact absurd h (List.not_mem_nil u)
  · exact h.2

theorem visited_reach (g : Graph) (v u : Nat) (hu : u ∈ (dfs g v ([], [])).1) :
    Reach g v u ∧ g.is_constant u = false := by
  rcases (dfs_facts g v ([], [])).vis_reach u hu with h | h
  · exact absurd h (List.not_mem_nil u)
  · exact h

/-- Membership characterization of the topological order, under the data
model's well-formedness condition that constants have no parents. -/
theorem topological_sort_mem_iff (g : Graph)
    (hconst : ∀ n, g.is_constant n = true → g.parents n = []) (v u : Nat) :
    u ∈ topological_sort g v ↔ (Reach g v u ∧ g.is_constant u = false) := by
  constructor
  · intro hu
    exact visited_reach g v u (topological_sort_mem_visited g v u hu)
  · rintro ⟨hr, hc⟩
    have hroot : ∀ w, Reach g v w → g.is_constant w = false → w ∈ topological_sort g v := by
      intro w hw
      induction hw with
      | refl =>
          intro hca
          have hvis : v ∈ (dfs g v ([], [])).1 := (dfs_facts g v ([], [])).root_vis hca
          rcases (dfs_facts g v ([], [])).vis_done v hvis with h | h
          · exact absurd h (List.not_mem_nil v)
          · exact List.mem_reverse.mpr h
      | tail hab he ih =>
          intro hcc
          rename_i b c
          have hcb : g.is_constant b = false := by
            by_cases hb : g.is_constant b = true
            · rw [hconst b hb] at he
              exact absurd he (List.not_mem_nil c)
            · revert hb; cases g.is_constant b <;> simp
          exact (topological_sort_ordInv g v).mem_closed b (ih hcb) c he hcc
    exact hroot u hr hc

/-- In a Nodup list satisfying `OrdInv`, a node occurs strictly before
each of its non-constant parents. -/
theorem ordInv_pos {g : Graph} : ∀ {l : List Nat}, l.Nodup → OrdInv g l →
    ∀ i j u p, l.get? i = some u → l.get? j = some p → p ∈ g.parents u →
      g.is_constant p = false → i < j := by
  intro l
  induction l with
  | nil =>
      intro _ _ i j u p hi
      rw [List.get?_nil] at hi
      exact absurd hi (Option.noConfusion)
  | cons a t ih =>
      intro hnd hInv i j u p hi hj hp hc
      obtain ⟨hat, hndt⟩ := List.nodup_cons.mp hnd
      cases i with
      | zero =>
          have hu : u = a := by
            rw [List.get?_cons_zero] at hi
            exact (Option.some.inj hi).symm
          subst hu
          have hpt : p ∈ t := hInv.1 p hp hc
          cases j with
          | zero =>
              have hpa : p = u := by
                rw [List.get?_cons_zero] at hj
                exact (Option.some.inj hj).symm
              subst hpa
              exact absurd hpt hat
          | succ j' => exact Nat.succ_pos j'
      | succ i' =>
          rw [List.get?_cons_succ] at hi
          have hut : u ∈ t := List.get?_mem hi
          cases j with
          | zero =>
              have hpa : p = a := by
                rw [List.get?_cons_zero] at hj
                exact (Option.some.inj hj).symm
              subst hpa
              exact absurd (hInv.2.mem_closed u hut p hp hc) hat
          | succ j' =>
              rw [List.get?_cons_succ] at hj
              exact Nat.succ_lt_succ (ih hndt hInv.2 i' j' u p hi hj hp hc)

/-! ## Dictionary lemmas -/

theorem lookup_dset_self : ∀ (m : DMap) (k : Nat) (x : Rat),
    List.lookup k (dset m k x) = some x := by
  intro m
  induction m with
  | nil => intro k x; simp [dset, List.lookup]
  | cons kv m ih =>
      intro k x
      by_cases h1 : kv.1 = k
      · simp [dset, h1, List.lookup]
      · have h1' : (k == kv.1) = false := beq_false_of_ne (fun e => h1 e.symm)
        simp [dset, h1, List.lookup, h1', ih]

theorem lookup_dset_ne : ∀ (m : DMap) (k : Nat) (x : Rat) (u : Nat), u ≠ k →
    List.lookup u (dset m k x) = List.lookup u m := by
  intro m
  induction m with
  | nil =>
      intro k x u h
      have h' : (u == k) = false := beq_false_of_ne h
      simp [dset, List.lookup, h']
  | cons kv m ih =>
      intro k x u h
      have h' : (u == k) = false := beq_false_of_ne h
      by_cases h1 : kv.1 = k
      · simp [dset, h1, List.lookup, h', h1 ▸ h']
      · by_cases h2 : u = kv.1
        · simp [dset, h1, List.lookup, h2]
        · have h2' : (u == kv.1) = false := beq_false_of_ne h2
          simp [dset, h1, List.lookup, h2', ih k x u h]

theorem dgetD_dset (m : DMap) (k : Nat) (x : Rat) (u : Nat) :
    dgetD (dset m k x) u = if k = u then x else dgetD m u := by
  by_cases h : k = u
  · subst h
    simp [dgetD, lookup_dset_self]
  · simp [dgetD, lookup_dset_ne m k x u (fun e => h e.symm), h]

theorem dgetD_nil (u : Nat) : dgetD [] u = 0 := rfl

theorem dgetD_eq_zero_of_lookup_none (m : DMap) (u : Nat)
    (h : m.lookup u = none) : dgetD m u = 0 := by
  simp [dgetD, h]

theorem distribute_nil (m : DMap) : distribute m [] = m := rfl

theorem distribute_cons (m : DMap) (pd : Nat × Rat) (l : List (Nat × Rat)) :
    distribute m (pd :: l) = distribute (dset m pd.1 (dgetD m pd.1 + pd.2)) l := rfl

/-- Accumulate-not-overwrite: after distributing a contribution list, each
entry equals its previous value plus the sum of the contributions aimed at
it. -/
theorem distribute_dgetD : ∀ (l : List (Nat × Rat)) (m : DMap) (u : Nat),
    dgetD (distribute m l) u = dgetD m u + contribSum l u := by
  intro l
  induction l with
  | nil => intro m u; simp [distribute_nil, contribSum]
  | cons pd l ih =>
      intro m u
      rw [distribute_cons, ih, dgetD_dset]
      by_cases h : pd.1 = u
      · simp [h, contribSum]
        ring
      · simp [h, contribSum]

/-! ## Trace lemmas for the backpropagation loop -/

theorem backpropStep_split (g : Graph) (m : DMap) (ev : List BEvent) (c : Nat) :
    backpropStep g (m, ev) c =
      ((backpropStep g (m, []) c).1, ev ++ (backpropStep g (m, []) c).2) := by
  by_cases h : g.is_leaf c = false <;> simp [backpropStep, h]

theorem foldl_backpropStep_split (g : Graph) :
    ∀ (S : List Nat) (m : DMap) (ev : List BEvent),
      S.foldl (backpropStep g) (m, ev) =
        ((S.foldl (backpropStep g) (m, [])).1,
          ev ++ (S.foldl (backpropStep g) (m, [])).2) := by
  intro S
  induction S with
  | nil => intro m ev; simp
  | cons c S ih =>
      intro m ev
      rw [List.foldl_cons, List.foldl_cons, backpropStep_split]
      rw [ih ((backpropStep g (m, []) c).1) (ev ++ (backpropStep g (m, []) c).2)]
      rw [ih ((backpropStep g (m, []) c).1) ((backpropStep g (m, []) c).2)]
      simp

theorem pathDeriv_eq (g : Graph) (coeff : Nat → List (Nat × Rat))
    (hlt : ∀ u, ∀ pc ∈ coeff u, pc.1 < u) (t : Nat) (u : Nat) :
    pathDeriv g coeff hlt t u =
      if u = t then 1
      else if g.is_leaf u then 0
      else ((coeff u).map (fun pc => pc.2 * pathDeriv g coeff hlt t pc.1)).sum := by
  rw [pathDeriv, List.attach_map_val (coeff u) (fun pc => pc.2 * pathDeriv g coeff hlt t pc.1)]

/-! ## Summation helpers -/

theorem sum_if_zero (c : Nat → Rat) : ∀ (S : List Nat) (x : Nat), x ∉ S →
    (S.map (fun u => if x = u then c u else 0)).sum = 0 := by
  intro S
  induction S with
  | nil => simp
  | cons a S ih =>
      intro x hx
      have hxa : ¬x = a := fun e => hx (e ▸ List.mem_cons_self a S)
      have hxS : x ∉ S := fun hm => hx (List.mem_cons_of_mem a hm)
      simp [hxa, ih x hxS]

theorem sum_if_single (c : Nat → Rat) : ∀ (S : List Nat), S.Nodup → ∀ x ∈ S,
    (S.map (fun u => if x = u then c u else 0)).sum = c x := by
  intro S
  induction S with
  | nil => intro _ x hx; exact absurd hx (List.not_mem_nil x)
  | cons a S ih =>
      intro hnd x hx
      obtain ⟨haS, hndS⟩ := List.nodup_cons.mp hnd
      rcases List.mem_cons.mp hx with h | h
      · subst h
        simp [sum_if_zero c S x haS]
      · have hxa : ¬x = a := fun e => haS (e ▸ h)
        simp [hxa, ih hndS x h]

theorem sum_contrib (w : Nat → Rat) :
    ∀ (L : List (Nat × Rat)) (S : List Nat), S.Nodup → (∀ pd ∈ L, pd.1 ∈ S) →
      (S.map (fun u => contribSum L u * w u)).sum
        = (L.map (fun pd => pd.2 * w pd.1)).sum := by
  intro L
  induction L with
  | nil => intro S _ _; simp [contribSum]
  | cons pd L ih =>
      intro S hnd hmem
      have h1 : ∀ u, contribSum (pd :: L) u * w u
          = (if pd.1 = u then pd.2 * w u else 0) + contribSum L u * w u := by
        intro u
        by_cases h : pd.1 = u <;> simp [contribSum, h, add_mul]
      simp only [h1]
      rw [List.sum_map_add]
      rw [sum_if_single (fun u => pd.2 * w u) S hnd pd.1
        (hmem pd (List.mem_cons_self pd L))]
      rw [ih S hnd (fun qd hq => hmem qd (List.mem_cons_of_mem pd hq))]
      simp

/-! ## Trace contents of the backpropagation loop -/

theorem accumsAt_append (t : Nat) (l1 l2 : List BEvent) :
    accumsAt t (l1 ++ l2) = accumsAt t l1 ++ accumsAt t l2 :=
  List.filterMap_append l1 l2 _

/-- Main invariant of the `backpropagate` loop: the total derivative
deposited at leaf `t` by the remaining iterations equals the sum, over
the remaining nodes, of their current map entry times their path
derivative towards `t`. -/
theorem bpLoop_accum_sum (g : Graph) (coeff : Nat → List (Nat × Rat))
    (hlt : ∀ u, ∀ pc ∈ coeff u, pc.1 < u)
    (hlin : ∀ u d, g.chain_rule u d = (coeff u).map (fun pc => (pc.1, pc.2 * d)))
    (hpar : ∀ u, (coeff u).map Prod.fst = g.parents u)
    (hnc : ∀ n, g.is_constant n = false)
    (t : Nat) (ht : g.is_leaf t = true) :
    ∀ S : List Nat, S.Nodup → OrdInv g S → ∀ m : DMap,
      (accumsAt t (S.foldl (backpropStep g) (m, [])).2).sum
        = (S.map (fun u => dgetD m u * pathDeriv g coeff hlt t u)).sum := by
  intro S
  induction S with
  | nil =>
      intro _ _ m
      simp [accumsAt]
  | cons u S ih =>
      intro hnd hOrd m
      obtain ⟨huS, hndS⟩ := List.nodup_cons.mp hnd
      rw [List.foldl_cons]
      by_cases hL : g.is_leaf u = false
      · -- interior node: chain_rule distributes the accumulated derivative
        have hstep : backpropStep g (m, []) u
            = (distribute m (g.chain_rule u (dgetD m u)),
                [BEvent.chainCall u (dgetD m u)]) := by
          simp [backpropStep, hL]
        rw [hstep, foldl_backpropStep_split, accumsAt_append]
        have hchain : accumsAt t [BEvent.chainCall u (dgetD m u)] = [] := rfl
        rw [hchain]
        rw [List.nil_append,
          ih hndS hOrd.2 (distribute m (g.chain_rule u (dgetD m u)))]
        have hut : ¬u = t := by
          intro e
          rw [e, ht] at hL
          exact Bool.noConfusion hL
        -- unfold the map entries after distribution
        simp only [distribute_dgetD, add_mul, List.sum_map_add]
        -- the contribution part sums to dgetD m u * pathDeriv u
        have hmem : ∀ pd ∈ g.chain_rule u (dgetD m u), pd.1 ∈ S := by
          intro pd hpd
          rw [hlin] at hpd
          obtain ⟨pc, hpc, hpceq⟩ := List.mem_map.mp hpd
          have : pd.1 ∈ (coeff u).map Prod.fst := by
            rw [← hpceq]
            exact List.mem_map.mpr ⟨pc, hpc, rfl⟩
          rw [hpar] at this
          exact hOrd.1 pd.1 this (hnc pd.1)
        rw [sum_contrib (pathDeriv g coeff hlt t) (g.chain_rule u (dgetD m u)) S hndS hmem]
        have hPS : (List.map (fun pd => pd.2 * pathDeriv g coeff hlt t pd.1)
            (g.chain_rule u (dgetD m u))).sum
            = dgetD m u * pathDeriv g coeff hlt t u := by
          rw [hlin, List.map_map]
          have : ((fun pd => pd.2 * pathDeriv g coeff hlt t pd.1) ∘
              (fun pc => (pc.1, pc.2 * dgetD m u)))
              = fun pc : Nat × Rat =>
                  dgetD m u * (pc.2 * pathDeriv g coeff hlt t pc.1) := by
            funext pc
            simp [Function.comp]
            ring
          rw [this, List.sum_map_mul_left]
          rw [pathDeriv_eq g coeff hlt t u, if_neg hut, if_neg (by simp [hL])]
        rw [hPS]
        simp [List.map_cons, List.sum_cons]
        ring
      · -- leaf node: the derivative is deposited
        have hL' : g.is_leaf u = true := by
          revert hL; cases g.is_leaf u <;> simp
        have hstep : backpropStep g (m, []) u = (m, [BEvent.accum u (dgetD m u)]) := by
          simp [backpropStep, hL']
        rw [hstep, foldl_backpropStep_split, accumsAt_append, List.sum_append]
        rw [ih hndS hOrd.2 m]
        by_cases hut : u = t
        · subst hut
          have haq : accumsAt u [BEvent.accum u (dgetD m u)] = [dgetD m u] := by
            simp [accumsAt]
          rw [haq]
          rw [List.map_cons, List.sum_cons, pathDeriv_eq g coeff hlt u u, if_pos rfl]
          simp
        · have haq : accumsAt t [BEvent.accum u (dgetD m u)] = [] := by
            simp [accumsAt, hut]
          rw [haq]
          rw [List.map_cons, List.sum_cons, pathDeriv_eq g coeff hlt t u, if_neg hut,
            if_pos hL']
          simp

theorem foldl_backpropStep_split' (g : Graph) (S : List Nat) (st : DMap × List BEvent) :
    S.foldl (backpropStep g) st =
      ((S.foldl (backpropStep g) (st.1, [])).1,
        st.2 ++ (S.foldl (backpropStep g) (st.1, [])).2) := by
  have h := foldl_backpropStep_split g S st.1 st.2
  rwa [Prod.mk.eta] at h

/-- Exactly-once: the number of `accumulate_derivative` calls at a leaf
`t` equals the number of occurrences of `t` in the processed list. -/
theorem bpLoop_accum_count (g : Graph) (t : Nat) (ht : g.is_leaf t = true) :
    ∀ (S : List Nat) (m : DMap),
      (accumsAt t (S.foldl (backpropStep g) (m, [])).2).length = S.count t := by
  intro S
  induction S with
  | nil => intro m; simp [accumsAt]
  | cons u S ih =>
      intro m
      rw [List.foldl_cons]
      by_cases hL : g.is_leaf u = false
      · have hstep : backpropStep g (m, []) u
            = (distribute m (g.chain_rule u (dgetD m u)),
                [BEvent.chainCall u (dgetD m u)]) := by
          simp [backpropStep, hL]
        have hut : ¬u = t := by
          intro e
          rw [e, ht] at hL
          exact Bool.noConfusion hL
        rw [hstep, foldl_backpropStep_split, accumsAt_append]
        have hchain : accumsAt t [BEvent.chainCall u (dgetD m u)] = [] := rfl
        rw [hchain, List.nil_append, ih]
        have hbeq : (u == t) = false := beq_false_of_ne hut
        simp [List.count_cons, hbeq]
      · have hL' : g.is_leaf u = true := by
          revert hL; cases g.is_leaf u <;> simp
        have hstep : backpropStep g (m, []) u = (m, [BEvent.accum u (dgetD m u)]) := by
          simp [backpropStep, hL']
        rw [hstep, foldl_backpropStep_split, accumsAt_append]
        rw [List.length_append, ih]
        by_cases hut : u = t
        · subst hut
          have haq : accumsAt u [BEvent.accum u (dgetD m u)] = [dgetD m u] := by
            simp [accumsAt]
          simp [haq, List.count_cons]
          omega
        · have haq : accumsAt t [BEvent.accum u (dgetD m u)] = [] := by
            simp [accumsAt, hut]
          have hbeq : (u == t) = false := beq_false_of_ne hut
          simp [haq, List.count_cons, hbeq]

theorem bpLoop_events (g : Graph) : ∀ (S : List Nat) (m : DMap) (e : BEvent),
    e ∈ (S.foldl (backpropStep g) (m, [])).2 → e.id ∈ S ∧ leafOk g e := by
  intro S
  induction S with
  | nil =>
      intro m e he
      exact absurd he (List.not_mem_nil e)
  | cons u S ih =>
      intro m e he
      rw [List.foldl_cons, foldl_backpropStep_split' g S (backpropStep g (m, []) u)] at he
      rcases List.mem_append.mp he with h | h
      · by_cases hL : g.is_leaf u = false
        · have hstep : (backpropStep g (m, []) u).2 = [BEvent.chainCall u (dgetD m u)] := by
            simp [backpropStep, hL]
          rw [hstep] at h
          have he' : e = BEvent.chainCall u (dgetD m u) := List.mem_singleton.mp h
          subst he'
          exact ⟨List.mem_cons_self u S, hL⟩
        · have hL' : g.is_leaf u = true := by
            revert hL; cases g.is_leaf u <;> simp
          have hstep : (backpropStep g (m, []) u).2 = [BEvent.accum u (dgetD m u)] := by
            simp [backpropStep, hL']
          rw [hstep] at h
          have he' : e = BEvent.accum u (dgetD m u) := List.mem_singleton.mp h
          subst he'
          exact ⟨List.mem_cons_self u S, hL'⟩
      · obtain ⟨hid, hok⟩ := ih (backpropStep g (m, []) u).1 e h
        exact ⟨List.mem_cons_of_mem u hid, hok⟩

/-- Backpropagation correctness: on an acyclic graph of non-constant
nodes whose chain rules are linear with local-derivative lists `coeff`,
every leaf `t` reachable from the terminal `v` receives exactly one
`accumulate_derivative` call, with the sum-over-paths total derivative. -/
theorem backpropagate_leaf_total (g : Graph) (coeff : Nat → List (Nat × Rat))
    (hlt : ∀ u, ∀ pc ∈ coeff u, pc.1 < u)
    (hlin : ∀ u d, g.chain_rule u d = (coeff u).map (fun pc => (pc.1, pc.2 * d)))
    (hpar : ∀ u, (coeff u).map Prod.fst = g.parents u)
    (hnc : ∀ n, g.is_constant n = false)
    (v t : Nat) (ht : g.is_leaf t = true) (hr : Reach g v t) (deriv : Rat) :
    accumsAt t (backpropagate g v deriv) = [deriv * pathDeriv g coeff hlt t v] := by
  have hconst : ∀ n, g.is_constant n = true → g.parents n = [] := fun n hn =>
    absurd hn (by simp [hnc n])
  have hmemt : t ∈ topological_sort g v :=
    (topological_sort_mem_iff g hconst v t).mpr ⟨hr, hnc t⟩
  have hmemv : v ∈ topological_sort g v :=
    (topological_sort_mem_iff g hconst v v).mpr ⟨Reach.refl v, hnc v⟩
  have hnd := topological_sort_nodup g v
  have hOrd := topological_sort_ordInv g v
  have hlen : (accumsAt t (backpropagate g v deriv)).length = 1 := by
    unfold backpropagate
    rw [bpLoop_accum_count g t ht]
    exact List.count_eq_one_of_mem hnd hmemt
  have hsum : (accumsAt t (backpropagate g v deriv)).sum
      = deriv * pathDeriv g coeff hlt t v := by
    unfold backpropagate
    rw [bpLoop_accum_sum g coeff hlt hlin hpar hnc t ht _ hnd hOrd]
    have hpt : ∀ u, dgetD (dset [] v deriv) u * pathDeriv g coeff hlt t u
        = if v = u then deriv * pathDeriv g coeff hlt t u else 0 := by
      intro u
      rw [dgetD_dset]
      by_cases h : v = u
      · simp [h]
      · simp [h, dgetD_nil]
    simp only [hpt]
    exact sum_if_single (fun u => deriv * pathDeriv g coeff hlt t u) _ hnd v hmemv
  obtain ⟨a, ha⟩ := List.length_eq_one.mp hlen
  rw [ha] at hsum ⊢
  rw [List.sum_cons, List.sum_nil, add_zero] at hsum
  rw [hsum]

theorem coeffEx_lt : ∀ u, ∀ pc ∈ coeffEx u, pc.1 < u := by
  intro u pc hpc
  unfold coeffEx at hpc
  split at hpc
  · subst_vars
    simp at hpc
    subst hpc
    decide
  · split at hpc
    · subst_vars
      simp at hpc
      rcases hpc with h | h
      · subst h; decide
      · subst h; decide
    · simp at hpc

set_option maxRecDepth 4000 in
theorem gEx_trace : backpropagate gEx 4 1 = [BEvent.chainCall 4 1, BEvent.accum 2 6,
    BEvent.chainCall 3 5, BEvent.accum 1 10] := by
  simp [backpropagate, topological_sort, dfs_eq, dfsMany_nil, dfsMany_cons, gEx,
    backpropStep, distribute, dgetD, dset, List.lookup]
  norm_num

set_option maxRecDepth 8000 in
theorem gDiamond_trace (d1 d2 : Rat) : backpropagate (gDiamond d1 d2) 4 1 =
    [BEvent.chainCall 4 1, BEvent.chainCall 3 1, BEvent.chainCall 2 1,
      BEvent.chainCall 1 (d1 + d2), BEvent.accum 0 (d1 + d2)] := by
  simp [backpropagate, topological_sort, dfs_eq, dfsMany_nil, dfsMany_cons, gDiamond,
    backpropStep, distribute, dgetD, dset, List.lookup]
  ring

set_option maxRecDepth 2000 in
theorem gConst_topo : topological_sort gConst 2 = [2, 0] := by
  simp [topological_sort, dfs_eq, dfsMany_nil, dfsMany_cons, gConst]

/-! ## Properties of `pyIndex` and `central_difference` -/

theorem pyIndex_nat (n i : Nat) (h : i < n) : pyIndex n (i : Int) = some i := by
  unfold pyIndex
  rw [if_neg (by omega), if_pos (by omega)]
  simp

theorem pyIndex_none (n : Nat) (arg : Int)
    (h : (n : Int) ≤ arg ∨ arg < -(n : Int)) : pyIndex n arg = none := by
  unfold pyIndex
  by_cases h0 : arg < 0
  · rw [if_pos h0, if_neg (by omega)]
  · rw [if_neg h0, if_neg (by omega)]

theorem pyIndex_neg (n : Nat) (arg : Int)
    (h1 : -(n : Int) ≤ arg) (h2 : arg < 0) : pyIndex n arg = pyIndex n (arg + n) := by
  unfold pyIndex
  rw [if_pos h2, if_pos (by omega), if_neg (by omega)]

/-! ## Facts about `topological_sort` and `backpropagate` on trivial graphs -/

theorem topological_sort_constant (g : Graph) (v : Nat)
    (hc : g.is_constant v = true) : topological_sort g v = [] := by
  unfold topological_sort
  rw [dfs_eq, if_neg (List.not_mem_nil v), if_pos hc]
  rfl

theorem topological_sort_orphan (g : Graph) (v : Nat)
    (hc : g.is_constant v = false) (hpar : g.parents v = []) :
    topological_sort g v = [v] := by
  unfold topological_sort
  rw [dfs_eq, if_neg (List.not_mem_nil v), if_neg (by simp [hc])]
  simp [hpar, dfsMany_nil]

theorem pathProds_eq (g : Graph) (coeff : Nat → List (Nat × Rat))
    (hlt : ∀ u, ∀ pc ∈ coeff u, pc.1 < u) (t : Nat) (u : Nat) :
    pathProds g coeff hlt t u =
      if u = t then [1]
      else if g.is_leaf u then []
      else ((coeff u).map
        (fun pc => (pathProds g coeff hlt t pc.1).map (fun w => pc.2 * w))).flatten := by
  rw [pathProds, List.attach_map_val (coeff u)
    (fun pc => (pathProds g coeff hlt t pc.1).map (fun w => pc.2 * w))]

theorem pathDeriv_eq_pathProds_sum (g : Graph) (coeff : Nat → List (Nat × Rat))
    (hlt : ∀ u, ∀ pc ∈ coeff u, pc.1 < u) (t : Nat) :
    ∀ u, pathDeriv g coeff hlt t u = (pathProds g coeff hlt t u).sum := by
  intro u
  induction u using Nat.strong_induction_on with
  | _ u IH =>
      rw [pathProds_eq, pathDeriv_eq]
      by_cases h1 : u = t
      · simp [h1]
      · rw [if_neg h1, if_neg h1]
        by_cases h2 : g.is_leaf u
        · simp [h2]
        · rw [if_neg h2, if_neg h2, List.sum_flatten, List.map_map]
          refine congrArg List.sum (List.map_congr_left ?_)
          intro pc hpc
          simp only [Function.comp]
          rw [List.sum_map_mul_left, IH pc.1 (hlt u pc hpc)]
          simp

/-! ## Helper facts about the example graphs -/

theorem gEx_hlin : ∀ u d, gEx.chain_rule u d
    = (coeffEx u).map (fun pc => (pc.1, pc.2 * d)) := by
  intro u d
  by_cases h3 : u = 3
  · simp [gEx, coeffEx, h3]
  · by_cases h4 : u = 4
    · simp [gEx, coeffEx, h3, h4]
    · simp [gEx, coeffEx, h3, h4]

theorem gEx_hpar : ∀ u, (coeffEx u).map Prod.fst = gEx.parents u := by
  intro u
  by_cases h3 : u = 3
  · simp [gEx, coeffEx, h3]
  · by_cases h4 : u = 4
    · simp [gEx, coeffEx, h3, h4]
    · simp [gEx, coeffEx, h3, h4]

theorem gEx_reach : Reach gEx 4 1 := by
  have h34 : (3 : Nat) ∈ gEx.parents 4 := by simp [gEx]
  have h31 : (1 : Nat) ∈ gEx.parents 3 := by simp [gEx]
  exact Reach.tail (Reach.of_parent h34) h31

theorem gEx_hconst : ∀ n, gEx.is_constant n = true → gEx.parents n = [] :=
  fun _ h => Bool.noConfusion h

/-! ## The claims -/

/-- C1: for every acyclic graph of non-constant nodes whose chain rules
apply the multivariate chain rule linearly (local derivatives `coeff`),
and every leaf reachable from the terminal node,
`backpropagate(terminal, deriv)` invokes `accumulate_derivative` on that
leaf exactly once, with the total derivative summed across all paths
(the sum of `pathProds`, the list of per-path products of local
derivatives); in particular, for `out = (x + x) * y` with leaves
`x = 3`, `y = 5` and correct `+` and `*` chain rules (`gEx`, where node 1
is `x` and node 2 is `y`), `backpropagate(out, 1)` accumulates exactly
`10` at `x` and `6` at `y`. -/
theorem claim_C1 :
    (∀ (g : Graph) (coeff : Nat → List (Nat × Rat))
      (hlt : ∀ u, ∀ pc ∈ coeff u, pc.1 < u),
      (∀ u d, g.chain_rule u d = (coeff u).map (fun pc => (pc.1, pc.2 * d))) →
      (∀ u, (coeff u).map Prod.fst = g.parents u) →
      (∀ n, g.is_constant n = false) →
      ∀ v t : Nat, g.is_leaf t = true → Reach g v t → ∀ deriv : Rat,
        accumsAt t (backpropagate g v deriv)
          = [deriv * (pathProds g coeff hlt t v).sum]) ∧
    accumsAt 1 (backpropagate gEx 4 1) = [10] ∧
    accumsAt 2 (backpropagate gEx 4 1) = [6] := by
  refine ⟨fun g coeff hlt hlin hpar hnc v t ht hr deriv => ?_, ?_, ?_⟩
  · rw [← pathDeriv_eq_pathProds_sum g coeff hlt t v]
    exact backpropagate_leaf_total g coeff hlt hlin hpar hnc v t ht hr deriv
  · rw [gEx_trace]
    simp [accumsAt]
  · rw [gEx_trace]
    simp [accumsAt]

theorem claim_C1_witness :
    accumsAt 1 (backpropagate gEx 4 1) = [1 * (pathProds gEx coeffEx coeffEx_lt 1 4).sum] :=
  claim_C1.1 gEx coeffEx coeffEx_lt gEx_hlin gEx_hpar (fun _ => rfl) 4 1 rfl gEx_reach 1

/-- C2: for every acyclic graph (whose constants, per the data model,
have no parents), `topological_sort(terminal)` returns a sequence
containing every non-constant node reachable from the terminal (the
terminal itself included when non-constant) exactly once, and for every
edge from a node to one of its parents the node's position is strictly
earlier than the parent's position. -/
theorem claim_C2 (g : Graph)
    (hconst : ∀ n, g.is_constant n = true → g.parents n = []) (v : Nat) :
    (∀ u, u ∈ topological_sort g v ↔ (Reach g v u ∧ g.is_constant u = false)) ∧
    (topological_sort g v).Nodup ∧
    (∀ i j u p, (topological_sort g v).get? i = some u →
      (topological_sort g v).get? j = some p → p ∈ g.parents u → i < j) := by
  refine ⟨topological_sort_mem_iff g hconst v, topological_sort_nodup g v, ?_⟩
  intro i j u p hi hj hp
  have hpmem : p ∈ topological_sort g v := List.get?_mem hj
  have hpc : g.is_constant p = false :=
    (visited_reach g v p (topological_sort_mem_visited g v p hpmem)).2
  exact ordInv_pos (topological_sort_nodup g v) (topological_sort_ordInv g v)
    i j u p hi hj hp hpc

theorem claim_C2_witness :
    (topological_sort gEx 4).Nodup ∧
    (1 ∈ topological_sort gEx 4 ↔ (Reach gEx 4 1 ∧ gEx.is_constant 1 = false)) :=
  ⟨(claim_C2 gEx gEx_hconst 4).2.1, (claim_C2 gEx gEx_hconst 4).1 1⟩

/-- C3: during `backpropagate`, contributions are accumulated by
addition, never overwritten (distributing a contribution list adds into
each entry), an entry never written reads as the additive identity `0`,
and on a diamond graph whose two dependents contribute `d1` and `d2`,
the shared node is processed with accumulated derivative exactly
`d1 + d2`. -/
theorem claim_C3 :
    (∀ (m : DMap) (contribs : List (Nat × Rat)) (u : Nat),
      dgetD (distribute m contribs) u = dgetD m u + contribSum contribs u) ∧
    (∀ (m : DMap) (u : Nat), m.lookup u = none → dgetD m u = 0) ∧
    (∀ d1 d2 : Rat,
      BEvent.chainCall 1 (d1 + d2) ∈ backpropagate (gDiamond d1 d2) 4 1) := by
  refine ⟨fun m c u => distribute_dgetD c m u, dgetD_eq_zero_of_lookup_none, ?_⟩
  intro d1 d2
  rw [gDiamond_trace]
  simp

theorem claim_C3_witness :
    dgetD (distribute [] [(5, 3), (5, 4)]) 5
      = dgetD [] 5 + contribSum [(5, 3), (5, 4)] 5 ∧
    dgetD [] 7 = 0 ∧
    BEvent.chainCall 1 ((2 : Rat) + 3) ∈ backpropagate (gDiamond 2 3) 4 1 :=
  ⟨claim_C3.1 [] [(5, 3), (5, 4)] 5, claim_C3.2.1 [] 7 rfl, claim_C3.2.2 2 3⟩

/-- C4: a node for which `is_constant()` is true never appears in the
sequence returned by `topological_sort`, is never marked visited by the
traversal, and never has `accumulate_derivative` or `chain_rule` invoked
on it by `backpropagate`, even if structurally reachable. -/
theorem claim_C4 (g : Graph) (v c : Nat) (hc : g.is_constant c = true) (deriv : Rat) :
    c ∉ topological_sort g v ∧ c ∉ (dfs g v ([], [])).1 ∧
    ∀ e ∈ backpropagate g v deriv, e.id ≠ c := by
  have hvis : c ∉ (dfs g v ([], [])).1 := by
    intro hmem
    have h := (visited_reach g v c hmem).2
    rw [hc] at h
    exact Bool.noConfusion h
  refine ⟨fun hmem => hvis (topological_sort_mem_visited g v c hmem), hvis, ?_⟩
  intro e he heq
  have hid : e.id ∈ topological_sort g v :=
    (bpLoop_events g (topological_sort g v) (dset [] v deriv) e he).1
  rw [heq] at hid
  exact hvis (topological_sort_mem_visited g v c hid)

theorem claim_C4_witness :
    1 ∉ topological_sort gConst 2 ∧ 1 ∉ (dfs gConst 2 ([], [])).1 ∧
    ∀ e ∈ backpropagate gConst 2 1, e.id ≠ 1 :=
  claim_C4 gConst 2 1 rfl 1

/-- C5: for every function `f` over scalar arguments, values `vals`,
valid argument index `i` and step `epsilon`,
`central_difference(f, vals, arg := i, epsilon)` returns exactly
`(f(vals with entry i set to v_i + epsilon) - f(vals with entry i set to
v_i - epsilon)) / (2 * epsilon)` — the symmetric difference quotient
with only argument `i` perturbed. -/
theorem claim_C5 (f : List Rat → Rat) (vals : List Rat) (i : Nat)
    (hi : i < vals.length) (epsilon : Rat) :
    central_difference f vals i epsilon =
      some ((f (vals.set i (vals.get ⟨i, hi⟩ + epsilon))
        - f (vals.set i (vals.get ⟨i, hi⟩ - epsilon))) / (2 * epsilon)) := by
  unfold central_difference
  rw [pyIndex_nat vals.length i hi]
  have hgd : vals.getD i 0 = vals.get ⟨i, hi⟩ := by
    rw [List.getD_eq_getElem vals 0 hi, List.get_eq_getElem]
  dsimp only
  rw [hgd]

theorem claim_C5_witness :
    central_difference (fun l => l.sum) [1, 2, 3] 1 (1 / 2) =
      some ((List.sum ([1, 2, 3].set 1 ([(1 : Rat), 2, 3].get ⟨1, by decide⟩ + 1 / 2))
        - List.sum ([1, 2, 3].set 1 ([(1 : Rat), 2, 3].get ⟨1, by decide⟩ - 1 / 2)))
          / (2 * (1 / 2))) :=
  claim_C5 (fun l => l.sum) [1, 2, 3] 1 (by decide) (1 / 2)

/-- C6: a terminal node that is itself constant yields an empty
topological order; a terminal node that is a leaf (no parents) yields
exactly the one-element order `[terminal]`, and `backpropagate(leaf, 1)`
invokes `accumulate_derivative` on that leaf exactly once with exactly
`1`. -/
theorem claim_C6 (g : Graph) (v : Nat) :
    (g.is_constant v = true → topological_sort g v = []) ∧
    (g.is_constant v = false → g.parents v = [] →
      topological_sort g v = [v] ∧
      (g.is_leaf v = true → backpropagate g v 1 = [BEvent.accum v 1])) := by
  refine ⟨topological_sort_constant g v, ?_⟩
  intro hc hpar
  have htopo : topological_sort g v = [v] := topological_sort_orphan g v hc hpar
  refine ⟨htopo, fun hleaf => ?_⟩
  unfold backpropagate
  rw [htopo, List.foldl_cons]
  have hread : dgetD (dset [] v 1) v = 1 := by
    rw [dgetD_dset]
    simp
  simp [backpropStep, hleaf, hread]

theorem claim_C6_witness :
    topological_sort gConst 1 = [] ∧ topological_sort gLeaf 0 = [0] ∧
    backpropagate gLeaf 0 1 = [BEvent.accum 0 1] :=
  ⟨(claim_C6 gConst 1).1 rfl, ((claim_C6 gLeaf 0).2 rfl rfl).1,
    ((claim_C6 gLeaf 0).2 rfl rfl).2 rfl⟩

/-- C7: `save_for_backward` is a no-op (the Context is unchanged, so
`saved_tensors` stays empty if it was empty) when `no_grad` is true, and
when `no_grad` is false each call replaces the entire saved sequence, so
after two calls `saved_tensors` is exactly the second call's values. -/
theorem claim_C7 :
    (∀ (α : Type) (ctx : Context α) (values : List α),
      ctx.no_grad = true → ctx.save_for_backward values = ctx) ∧
    (∀ (α : Type) (ctx : Context α) (v1 v2 : List α),
      ctx.no_grad = false →
        ((ctx.save_for_backward v1).save_for_backward v2).saved_tensors = v2) := by
  constructor
  · intro α ctx values h
    simp [Context.save_for_backward, h]
  · intro α ctx v1 v2 h
    simp [Context.save_for_backward, Context.saved_tensors, h]

theorem claim_C7_witness :
    Context.save_for_backward (Context.mk true [] : Context Nat) [5]
      = (Context.mk true [] : Context Nat) ∧
    (Context.save_for_backward
      (Context.save_for_backward (Context.mk false [] : Context Nat) [1]) [2]).saved_tensors
      = [2] :=
  ⟨claim_C7.1 Nat (Context.mk true []) [5] rfl,
    claim_C7.2 Nat (Context.mk false []) [1] [2] rfl⟩

/-- C8: during every `backpropagate` call, `accumulate_derivative` is
invoked only on nodes whose `is_leaf()` is true and `chain_rule` only on
nodes whose `is_leaf()` is false (the trace of these calls is the whole
observable behaviour of `backpropagate`, which returns no value). -/
theorem claim_C8 (g : Graph) (v : Nat) (deriv : Rat) :
    ∀ e ∈ backpropagate g v deriv, leafOk g e :=
  fun e he => (bpLoop_events g (topological_sort g v) (dset [] v deriv) e he).2

theorem claim_C8_witness : leafOk gEx (BEvent.chainCall 4 1) :=
  claim_C8 gEx 4 1 (BEvent.chainCall 4 1)
    (by rw [gEx_trace]; exact List.mem_cons_self _ _)

/-- C10: `central_difference` with `n` positional values is well-defined
only for a valid Python sequence index: for `arg ≥ n` or `arg < -n` it
returns the index error (`none`) whatever `f` is, i.e. without ever
calling `f`; for `-n ≤ arg < 0` the negative index is silently accepted
and perturbs the argument counted from the end, behaving exactly like the
nonnegative index `arg + n`. -/
theorem claim_C10 :
    (∀ (f : List Rat → Rat) (vals : List Rat) (arg : Int) (epsilon : Rat),
      ((vals.length : Int) ≤ arg ∨ arg < -(vals.length : Int)) →
      central_difference f vals arg epsilon = none) ∧
    (∀ (f : List Rat → Rat) (vals : List Rat) (arg : Int) (epsilon : Rat),
      -(vals.length : Int) ≤ arg → arg < 0 →
      central_difference f vals arg epsilon
        = central_difference f vals (arg + vals.length) epsilon) := by
  constructor
  · intro f vals arg epsilon h
    unfold central_difference
    rw [pyIndex_none vals.length arg h]
  · intro f vals arg epsilon h1 h2
    unfold central_difference
    rw [pyIndex_neg vals.length arg h1 h2]

theorem claim_C10_witness :
    central_difference (fun l => l.sum) [1, 2, 3] 5 1 = none ∧
    central_difference (fun l => l.sum) [1, 2, 3] (-1) 1
      = central_difference (fun l => l.sum) [1, 2, 3] (-1 + ([(1 : Rat), 2, 3].length : Int)) 1 :=
  ⟨claim_C10.1 (fun l => l.sum) [1, 2, 3] 5 1 (Or.inl (by decide)),
    claim_C10.2 (fun l => l.sum) [1, 2, 3] (-1) 1 (by decide) (by decide)⟩
